import Mathlib

/-!
Verification of the sparse-array abstract-domain aspects of the
lal-checkers static analyzer.

The file shallowly embeds:
* the interval lattice used as index and element domain of the sparse
  array domain (modelled from the spec: `lalcheck/ai/domains.py` is not
  part of the sources under review),
* the sparse-array lattice (also modelled from the spec),
* the operations of `lalcheck/ai/domain_ops/sparse_array_ops.py`
  (`get`, `updated`, `array_string`, `inv_get`, `inv_array_string`),
* the `Signature` class of `lalcheck/ai/interpretations.py`,
* the random-access-memory definition provider of
  `lalcheck/ai/interpretations.py`,
* the `ConvertUniversalTypes` pass and the `transform_decls` /
  `transform_stmts` recovery loop of
  `lalcheck/ai/irs/basic/frontends/lal/codegen.py`.
-/

/-! ## The interval domain

Modelled from the spec: `lalcheck/ai/domains.py` is absent from the
sources; the spec describes the interval lattice as "either ⊥ or a closed
integer interval [lo, hi]", with exact meet, hull join, a `split`
operation covering `x \ y`, and `size` counting the concrete elements.
`none` is ⊥; `some (lo, hi)` with `lo ≤ hi` is the interval `[lo, hi]`.
-/

/-- An element of the interval domain: `⊥` or a closed integer range. -/
abbrev Intv := Option (Int × Int)

/-- Builds an interval, collapsing an inverted range to `⊥`. -/
def mkIntv (lo hi : Int) : Intv := if lo ≤ hi then some (lo, hi) else none

/-- `is_empty` of the interval domain: only `⊥` is empty. -/
def Intv.isEmpty : Intv → Bool
  | none => true
  | some _ => false

/-- `meet` of the interval domain: exact intersection. -/
def Intv.meet : Intv → Intv → Intv
  | some (a, b), some (c, d) => mkIntv (max a c) (min b d)
  | _, _ => none

/-- `join` of the interval domain: the enclosing interval (exact hull). -/
def Intv.join : Intv → Intv → Intv
  | some (a, b), some (c, d) => some (min a c, max b d)
  | none, x => x
  | x, none => x

/-- `le` of the interval domain: inclusion of ranges. -/
def Intv.le : Intv → Intv → Bool
  | none, _ => true
  | some _, none => false
  | some (a, b), some (c, d) => decide (c ≤ a) && decide (b ≤ d)

/-- `size` of the interval domain: the number of concrete elements. -/
def Intv.size : Intv → Nat
  | none => 0
  | some (a, b) => (b - a + 1).toNat

/-- `split x y` of the interval domain: a cover of `x \ y` by at most two
intervals (the part of `x` below `y` and the part of `x` above `y`).
Callers filter out the empty pieces. -/
def Intv.split : Intv → Intv → List Intv
  | none, _ => []
  | some x, none => [some x]
  | some (a, b), some (c, d) => [mkIntv a (min b (c - 1)), mkIntv (max a (d + 1)) b]

/-- The (bounded) top element shared by the index and element instances of
the interval domain, as in `Intervals(lo, hi)` of the source. -/
def topIntv : Intv := some (-100, 100)

/-! ## The sparse-array domain

Modelled from the spec: an abstract array is a finite ordered list of
`(indexSlice, elem)` pairs; after normalization the slices are disjoint,
sorted, and adjacent entries with equal elements are merged while empty
slices are discarded.  An array represents the concrete arrays mapping
each index inside a slice to a value of the paired element, and the
indices outside every slice to `⊤` of the element domain.  `⊥` is the
empty representation.  `⊔` and `⊓` are the least upper bound and an
over-approximation of the intersection under that concretization.
-/

/-- An element of the sparse array domain. -/
abbrev SArr := List (Intv × Intv)

/-- Sort key of an entry: the lower bound of its slice. -/
def entryLo (e : Intv × Intv) : Int :=
  match e.1 with
  | some (a, _) => a
  | none => 0

/-- Inserts an entry in a list sorted by slice lower bound. -/
def insertEntry (e : Intv × Intv) : SArr → SArr
  | [] => [e]
  | x :: xs => if entryLo e ≤ entryLo x then e :: x :: xs else x :: insertEntry e xs

/-- Sorts the entries of an abstract array by slice lower bound. -/
def sortEntries : SArr → SArr
  | [] => []
  | e :: es => insertEntry e (sortEntries es)

/-- Whether two sorted slices can be merged: equal elements and
contiguous-or-overlapping slices (their union is again an interval). -/
def canMerge (e1 e2 : Intv × Intv) : Bool :=
  match e1, e2 with
  | (some (a, b), v1), (some (c, d), v2) =>
    v1 == v2 && decide (c ≤ b + 1) && decide (a ≤ d + 1)
  | _, _ => false

/-- Merges adjacent entries with equal elements in a sorted array; the
fuel bounds the number of entries inspected and the top-level wrapper
passes the length of the list. -/
def mergeAdjFuel : Nat → SArr → SArr
  | _, [] => []
  | _, [e] => [e]
  | 0, l => l
  | fuel + 1, e1 :: e2 :: rest =>
    if canMerge e1 e2 then mergeAdjFuel fuel ((Intv.join e1.1 e2.1, e1.2) :: rest)
    else e1 :: mergeAdjFuel fuel (e2 :: rest)

/-- Merges adjacent entries with equal elements in a sorted array. -/
def mergeAdj (l : SArr) : SArr := mergeAdjFuel l.length l

/-- `normalized` of the sparse array domain: discards empty slices, keeps
the entries ordered and merges adjacent entries with equal elements.
(The `max_elems` widening cap is applied by the evaluator at loop heads,
not here.) -/
def normalized (a : SArr) : SArr :=
  mergeAdj (sortEntries (a.filter (fun e => !e.1.isEmpty)))

/-- `is_empty` of the sparse array domain: `⊥` is the empty
representation. -/
def SArr.isEmptyArr (a : SArr) : Bool := a.isEmpty

/-- `join` of the sparse array domain: the least upper bound.  Under the
concretization, an index keeps a constraint in the join only where both
sides constrain it, hence the pairwise slice meets with element joins;
`⊥` (the empty representation) is the identity. -/
def arrJoin (a b : SArr) : SArr :=
  if a.isEmpty then b
  else if b.isEmpty then a
  else
    normalized
      (a.flatMap fun x =>
        b.filterMap fun y =>
          let m := Intv.meet x.1 y.1
          if m.isEmpty then none else some (m, Intv.join x.2 y.2))

/-- The part of the slice `s` not covered by any of the slices in
`others`, as a list of nonempty intervals. -/
def sliceResidual (s : Intv) (others : List Intv) : List Intv :=
  (others.foldl (fun acc t => acc.flatMap fun p => Intv.split p t) [s]).filter
    (fun p => !p.isEmpty)

/-- `meet` of the sparse array domain: overlay of the two arrays.  Where
both sides constrain an index the elements are met (entries whose
elements conflict are dropped); where only one side constrains an index
its entry is kept. -/
def arrMeet (a b : SArr) : SArr :=
  normalized
    ((a.flatMap fun x =>
        b.filterMap fun y =>
          let si := Intv.meet x.1 y.1
          let ef := Intv.meet x.2 y.2
          if si.isEmpty || ef.isEmpty then none else some (si, ef)) ++
      (a.flatMap fun x => (sliceResidual x.1 (b.map Prod.fst)).map fun r => (r, x.2)) ++
      (b.flatMap fun y => (sliceResidual y.1 (a.map Prod.fst)).map fun r => (r, y.2)))

/-! ## Operations of `sparse_array_ops.py`

These definitions translate the source functions; the sparse array
domain's index and element domains are both instantiated with the
interval domain above, which has the `HasSplit` capability.  Functions
that dispatch on `Capability.HasSplit(index_dom)` take `hasSplit` as a
parameter, mirroring `return do_precise if has_split else do_imprecise`.
-/

/-- `get(array, index)` (sparse_array_ops.py:10-45): joins the elements of
every entry whose slice overlaps the requested indices. -/
def SArr.get (array : SArr) (index : Intv) : Intv :=
  ((array.filter fun e => !(Intv.meet index e.1).isEmpty).map Prod.snd).foldl
    Intv.join none

/-- `do_precise` of `updated` (sparse_array_ops.py:60-107): when the
indices represent a single concrete value, splits the overlapping
entries around the indices and inserts the new entry; otherwise joins
with the singleton array.  `partition` is `lalcheck.ai.utils.partition`
(absent from the sources): its first component collects the elements
satisfying the predicate, as the use sites show. -/
def updatedPrecise (array : SArr) (val indices : Intv) : SArr :=
  if indices.size = 1 then
    let part := array.partition fun e => (Intv.meet indices e.1).isEmpty
    let notRelevant := part.1
    let relevant := part.2
    let updatedRelevant :=
      relevant.flatMap fun e =>
        (Intv.split e.1 indices).filterMap fun s =>
          if s.isEmpty then none else some (s, e.2)
    normalized (notRelevant ++ updatedRelevant ++ [(indices, val)])
  else arrJoin array [(indices, val)]

/-- `do_imprecise` of `updated` (sparse_array_ops.py:109-128). -/
def updatedImprecise (array : SArr) (val indices : Intv) : SArr :=
  arrJoin array [(indices, val)]

/-- `updated` (sparse_array_ops.py:48-130): selects the precise
implementation when the index domain has the split capability. -/
def updated (hasSplit : Bool) (array : SArr) (val indices : Intv) : SArr :=
  if hasSplit then updatedPrecise array val indices
  else updatedImprecise array val indices

/-- `array_string` (sparse_array_ops.py:201-238).  The Python function
receives the flattened sequence `i_1, e_1, ..., i_n, e_n`; it is modelled
here on the list of `(index, element)` pairs the source immediately
rebuilds.  With no pairs it returns `domain.empty` (the empty
representation); otherwise it reduces the singleton arrays with
`domain.join` and normalizes. -/
def array_string (args : List (Intv × Intv)) : SArr :=
  match args with
  | [] => []
  | a :: rest => normalized ((rest.map fun p => [p]).foldl arrJoin [a])

/-- `do_precise` of `inv_get` (sparse_array_ops.py:255-298): builds the
biggest array holding `res` at `index_constr` and `⊤` elsewhere, meets it
with `array_constr`, and refines according to the size of the index set
derived from the meet.  `none` is the infeasible sentinel. -/
def invGetPrecise (res : Intv) (arrayConstr : SArr) (indexConstr : Intv) :
    Option (SArr × Intv) :=
  let biggestArray :=
    ((Intv.split topIntv indexConstr).map fun s => (s, topIntv)) ++
      [(indexConstr, res)]
  let arrayMeet := arrMeet biggestArray arrayConstr
  if arrayMeet.isEmpty then none
  else
    let indices :=
      ((arrayMeet.filter fun e => e.1.le indexConstr && e.2.le res).map
          Prod.fst).foldl Intv.join none
    let indicesSize := indices.size
    if indicesSize = 0 then none
    else if indicesSize = 1 then
      some
        (updated true arrayConstr (Intv.meet res (SArr.get arrayConstr indices))
          indices, indices)
    else some (arrayConstr, indices)

/-- `do_imprecise` of `inv_get` (sparse_array_ops.py:300-316). -/
def invGetImprecise (_res : Intv) (arrayConstr : SArr) (indexConstr : Intv) :
    Option (SArr × Intv) :=
  if arrayConstr.isEmpty || indexConstr.isEmpty then none
  else some (arrayConstr, indexConstr)

/-- `inv_get` (sparse_array_ops.py:241-318). -/
def inv_get (hasSplit : Bool) (res : Intv) (arrayConstr : SArr)
    (indexConstr : Intv) : Option (SArr × Intv) :=
  if hasSplit then invGetPrecise res arrayConstr indexConstr
  else invGetImprecise res arrayConstr indexConstr

/-- `inv_array_string` (sparse_array_ops.py:432-436): returns the argument
constraints unchanged, whatever the expected result. -/
def inv_array_string (_expected : SArr) (args : List (Intv × Intv)) :
    List (Intv × Intv) :=
  args

/-! ## Claim-side definitions for the sparse-array operations

Written from the words of the claims (or their amended forms), to be
compared with the definitions translated from the source. -/

/-- The update operation as the claim describes it: with a split-capable
domain and a singleton index, split each overlapping slice around the
index, keep the non-overlapping entries, insert `(idx, val)` and
normalize; otherwise join with the singleton array. -/
def updatedSpec (hasSplit : Bool) (arr : SArr) (val idx : Intv) : SArr :=
  if hasSplit && idx.size == 1 then
    normalized
      ((arr.filter fun e => (Intv.meet idx e.1).isEmpty) ++
        ((arr.filter fun e => !(Intv.meet idx e.1).isEmpty).flatMap fun e =>
          (Intv.split e.1 idx).filterMap fun s =>
            if s.isEmpty then none else some (s, e.2)) ++
        [(idx, val)])
  else arrJoin arr [(idx, val)]

/-- `array_string` as the claim describes it: folding `updated` over the
pairs, starting from the empty array. -/
def arrayStringClaim (args : List (Intv × Intv)) : SArr :=
  args.foldl (fun acc p => updated true acc p.2 p.1) []

/-- `array_string` as the amended claim describes it: the empty array on
no pairs, otherwise the normalized reduction of the singleton arrays by
the domain join. -/
def arrayStringSpec (args : List (Intv × Intv)) : SArr :=
  match args with
  | [] => []
  | a :: rest => normalized ((rest.map fun p => [p]).foldl arrJoin [a])

/-- The backward get operation as the amended claim describes it: meet
the biggest array holding the expected value at the constrained indices
(and `⊤` elsewhere) with the array constraint; infeasible when the meet
is empty; derive the joined index set of the meet entries lying inside
the index constraint with elements below the expected value; infeasible
when that set is empty; when it is a singleton, refine the array
constraint via `updated` with the element met with the expected value
and return it with the derived index set; otherwise return the array
constraint unchanged together with the derived (possibly strictly
refined) index set. -/
def invGetSpec (res : Intv) (arrayConstr : SArr) (indexConstr : Intv) :
    Option (SArr × Intv) :=
  let biggestArray :=
    ((Intv.split topIntv indexConstr).map fun s => (s, topIntv)) ++
      [(indexConstr, res)]
  let arrayMeet := arrMeet biggestArray arrayConstr
  if arrayMeet.isEmpty then none
  else
    let indices :=
      ((arrayMeet.filter fun e => e.1.le indexConstr && e.2.le res).map
          Prod.fst).foldl Intv.join none
    if indices.size = 0 then none
    else if indices.size = 1 then
      some
        (updated true arrayConstr (Intv.meet res (SArr.get arrayConstr indices))
          indices, indices)
    else some (arrayConstr, indices)

/-! ## Signatures (`lalcheck/ai/interpretations.py`)

Abstract domains are compared by object identity in the source (the type
interpreter memoizes them so identical types share one domain object);
they are modelled by numeric identifiers.  Operation names are plain
strings or parameterised objects such as `ops.GetName(index)`; they are
modelled by an inductive type.  User data is an optional opaque value. -/

/-- An operation name: the parameterised names used by the
random-access-memory provider, the equality operators, and plain
string names. -/
inductive OpName where
  | getName (index : Nat)
  | updatedName (index : Nat)
  | offsetName (index : Nat)
  | copyOffset
  | eqOp
  | neqOp
  | str (s : String)
deriving DecidableEq, Repr

/-- `Signature` (interpretations.py:58-160): operation name, input
domains, optional output domain, out-parameter indices and user data. -/
structure Signature where
  name : OpName
  input_domains : List Nat
  output_domain : Option Nat
  out_param_indices : List Nat
  userdata : Option Nat
deriving DecidableEq, Repr

/-- `Signature.contains` (interpretations.py:100-107). -/
def Signature.contains (s : Signature) (domain : Nat) : Bool :=
  s.input_domains.contains domain || s.output_domain == some domain

/-- `Signature.substituted` (interpretations.py:109-126): builds a new
signature replacing the given domain in the input domains and the output
domain.  The constructor call passes only four fields, so the new
signature's user data is the constructor default `None`. -/
def Signature.substituted (s : Signature) (domain by_ : Nat) : Signature :=
  { name := s.name
    input_domains := s.input_domains.map fun dom => if dom = domain then by_ else dom
    output_domain :=
      if s.output_domain = some domain then some by_ else s.output_domain
    out_param_indices := s.out_param_indices
    userdata := none }

/-- `Signature.__eq__` (interpretations.py:137-146): field-by-field
comparison of all five fields. -/
def Signature.sigEq (a b : Signature) : Bool :=
  a.name == b.name &&
    a.input_domains == b.input_domains &&
    a.output_domain == b.output_domain &&
    a.out_param_indices == b.out_param_indices &&
    a.userdata == b.userdata

/-! ## The random-access-memory definition provider
(`lalcheck/ai/interpretations.py:912-952`)

The forward/backward implementations returned by the provider live in
`lalcheck/ai/domain_ops/ram_ops.py`, which is absent from the sources;
they are modelled as opaque tags.  `_not_implemented`
(interpretations.py:209-210) is in the sources: it ignores its arguments
and raises `NotImplementedError`; it is modelled as a function that
always returns an error and never a value. -/

/-- A forward or backward implementation returned by the
random-access-memory provider, as an opaque tag naming the `ram_ops`
function the source returns, or the `_not_implemented` trap. -/
inductive RamImpl where
  | getter (index : Nat) (outputDomain : Option Nat)
  | invGetter (index : Nat) (outputDomain : Option Nat)
  | updater (index : Nat) (valDomain : Nat)
  | invUpdater (index : Nat) (valDomain : Nat)
  | offseter (index : Nat)
  | invOffseter (index : Nat)
  | copyOffset
  | invCopyOffset
  | notImplemented
deriving DecidableEq, Repr

/-- The memory domain object of `default_ram_interpreter`
(`domains.RandomAccessMemory()`), as an identifier. -/
def memDom : Nat := 100

/-- The boolean domain object (`boolean_ops.Boolean`), as an
identifier. -/
def boolDom : Nat := 101

/-- `bin_rel_signer` (interpretations.py:916): signature of a binary
relation over the memory domain producing a boolean. -/
def binRelSig (name : OpName) : Signature :=
  ⟨name, [memDom, memDom], some boolDom, [], none⟩

/-- `cpy_offset_sig` (interpretations.py:917). -/
def cpyOffsetSig : Signature :=
  ⟨.copyOffset, [memDom, memDom], some memDom, [], none⟩

/-- The definition provider of `default_ram_interpreter`
(interpretations.py:919-946).  The `isinstance` chain on the operation
name comes first; the remaining cases compare the whole signature.
(The source indexes `sig.input_domains[0]` and `[1]` directly; the
optional lookups below return no definition where the source would fail
on a too-short tuple.) -/
def defaultRamProvider (sig : Signature) : Option (RamImpl × RamImpl) :=
  match sig.name with
  | .getName i =>
    if sig.input_domains.head? = some memDom then
      some (.getter i sig.output_domain, .invGetter i sig.output_domain)
    else none
  | .updatedName i =>
    if sig.input_domains.head? = some memDom then
      match sig.input_domains.get? 1 with
      | some d1 => some (.updater i d1, .invUpdater i d1)
      | none => none
    else none
  | .offsetName i =>
    if sig.input_domains.head? = some memDom then
      some (.offseter i, .invOffseter i)
    else none
  | _ =>
    if sig.sigEq cpyOffsetSig then some (.copyOffset, .invCopyOffset)
    else if sig.sigEq (binRelSig .eqOp) || sig.sigEq (binRelSig .neqOp) then
      some (.notImplemented, .notImplemented)
    else none

/-- `_not_implemented` (interpretations.py:209-210): ignores its
arguments and raises `NotImplementedError`; applying it never produces a
value. -/
def notImplementedFn {α β : Type} (_args : α) : Except Unit β :=
  .error ()

/-! ## The universal-type rewrite pass
(`lalcheck/ai/irs/basic/frontends/lal/codegen.py:2324-2481`)

`ConvertUniversalTypes` is constructed from a constant-expression
evaluator and a typer; both are opaque collaborators here (the pass is
parameterised by them in the source as well).  Type hints are modelled
by numeric identifiers.  IR expressions keep only what the pass reads:
literal values, identifier type hints (an identifier and its variable
share their type hint), call arguments, call type hints and the optional
`param_types` data.  The source mutates nodes in place; the embedding
returns the rewritten node.  `NotConstExprError` of the evaluator is
modelled by `evalConst` returning `none`. -/

/-- An IR expression as seen by `ConvertUniversalTypes`. -/
inductive UExpr where
  | lit (val : Nat) (hint : Nat)
  | ident (hint : Nat)
  | funcall (args : List UExpr) (hint : Nat) (paramTypes : Option (List Nat))

/-- The type hint of an expression (`expr.data.type_hint`). -/
def UExpr.hint : UExpr → Nat
  | .lit _ h => h
  | .ident h => h
  | .funcall _ h _ => h

/-- `expr.data = expr.data.copy(type_hint=...)`. -/
def UExpr.withHint : UExpr → Nat → UExpr
  | .lit v _, h => .lit v h
  | .ident _, h => .ident h
  | .funcall args _ pts, h => .funcall args h pts

mutual

/-- Structural depth of an expression, ignoring the numeric payloads
(used as the termination measure of the visitor). -/
def UExpr.depth : UExpr → Nat
  | .lit _ _ => 1
  | .ident _ => 1
  | .funcall args _ _ => 1 + UExpr.depthList args

/-- Structural depth of an argument list. -/
def UExpr.depthList : List UExpr → Nat
  | [] => 0
  | e :: es => 1 + UExpr.depth e + UExpr.depthList es

end

/-- The context of the pass: the universal and default types of the
constant-expression evaluator, the typer-backed integer-type test
(`is_integer_type`, already false on typer failure), and the
constant-expression evaluator (`none` models `NotConstExprError`). -/
structure UEnv where
  universalInt : Nat
  universalReal : Nat
  intType : Nat
  boolType : Nat
  isIntRange : Nat → Bool
  evalConst : UExpr → Option Nat

/-- The error outcomes of the pass: `NotImplementedError` raised by
`compatible_type` / `is_compatible`, and the `assert` of
`visit_funcall`. -/
inductive UErr where
  | notImplemented
  | assertionFailed
deriving DecidableEq, Repr

/-- `has_universal_type` (codegen.py:2340-2352). -/
def hasUniversalType (env : UEnv) (e : UExpr) : Bool :=
  e.hint == env.universalInt || e.hint == env.universalReal

/-- `is_compatible` (codegen.py:2365-2378): integer types are compatible
with universal integers; every other universal type raises
`NotImplementedError`. -/
def isCompatible (env : UEnv) (tpe universalTpe : Nat) : Except UErr Bool :=
  if universalTpe = env.universalInt then .ok (env.isIntRange tpe)
  else .error .notImplemented

/-- `compatible_type` (codegen.py:2380-2391): the default `Integer` type
for universal integers; every other universal type raises
`NotImplementedError`. -/
def compatibleType (env : UEnv) (universalTpe : Nat) : Except UErr Nat :=
  if universalTpe = env.universalInt then .ok env.intType
  else .error .notImplemented

/-- The type chosen by the `else` branch of `visit_funcall`
(codegen.py:2446-2463) for one argument: its own type when not
universal; otherwise the first non-universal argument type when
compatible, else the expected type when compatible, else the default
compatible type. -/
def chooseTpe (env : UEnv) (notUniversals : List Nat) (expected : Nat)
    (arg : UExpr) : Except UErr Nat :=
  if !hasUniversalType env arg then .ok arg.hint
  else
    match notUniversals with
    | nu :: _ => do
      let c ← isCompatible env nu arg.hint
      if c then .ok nu
      else do
        let c2 ← isCompatible env expected arg.hint
        if c2 then .ok expected else compatibleType env arg.hint
    | [] => do
      let c2 ← isCompatible env expected arg.hint
      if c2 then .ok expected else compatibleType env arg.hint

mutual

/-- `try_convert_expr` (codegen.py:2393-2414): evaluate to a literal of
the expected type when constant; otherwise replace a universal type hint
by the expected type and visit the expression with its (new) type
hint. -/
def tryConvertExpr (env : UEnv) (e : UExpr) (expectedType : Nat) :
    Except UErr UExpr :=
  match env.evalConst e with
  | some v => .ok (.lit v expectedType)
  | none =>
    let e' := if hasUniversalType env e then e.withHint expectedType else e
    visitExpr env e' e'.hint
termination_by 2 * e.depth + 2
decreasing_by
  simp only [UExpr.withHint, UExpr.depth]
  split <;> cases e <;> simp [UExpr.withHint, UExpr.depth]

/-- `expr.visit(self, expected_type)`: dispatch of the visitor on an
expression node (`visit_ident` codegen.py:2472-2481, `visit_funcall`
codegen.py:2430-2470; literals have no specific visit). -/
def visitExpr (env : UEnv) (e : UExpr) (expectedType : Nat) :
    Except UErr UExpr :=
  match e with
  | .lit v h => .ok (.lit v h)
  | .ident h =>
    .ok (.ident (if h == env.universalInt || h == env.universalReal then
      expectedType else h))
  | .funcall args hint paramTypes =>
    if args.any (hasUniversalType env) then
      match paramTypes with
      | some ps =>
        if ps.length = args.length then do
          let args' ← visitArgsWithTypes env ps args
          .ok (.funcall args' hint paramTypes)
        else .error .assertionFailed
      | none => do
        let notUniversals :=
          (args.filter fun arg => !hasUniversalType env arg).map UExpr.hint
        let args' ← visitArgsChoose env notUniversals expectedType args
        .ok (.funcall args' hint paramTypes)
    else do
      let args' ← visitArgsSelf env args
      .ok (.funcall args' hint paramTypes)
termination_by 2 * e.depth + 1
decreasing_by
  all_goals simp [UExpr.depth]
  all_goals omega

/-- The `param_types` branch of `visit_funcall`: convert each argument to
the expected type of the corresponding parameter (`zip` truncates at the
shorter list, as in the source; the preceding `assert` guarantees equal
lengths). -/
def visitArgsWithTypes (env : UEnv) (ps : List Nat) (args : List UExpr) :
    Except UErr (List UExpr) :=
  match ps, args with
  | pt :: ps', arg :: rest => do
    let arg' ← tryConvertExpr env arg pt
    let rest' ← visitArgsWithTypes env ps' rest
    .ok (arg' :: rest')
  | _, _ => .ok []
termination_by 2 * UExpr.depthList args + 2
decreasing_by
  all_goals simp [UExpr.depthList] <;> omega

/-- The `else` branch of `visit_funcall`: convert each argument to the
type chosen by `chooseTpe`. -/
def visitArgsChoose (env : UEnv) (notUniversals : List Nat) (expected : Nat)
    (args : List UExpr) : Except UErr (List UExpr) :=
  match args with
  | [] => .ok []
  | arg :: rest => do
    let tpe ← chooseTpe env notUniversals expected arg
    let arg' ← tryConvertExpr env arg tpe
    let rest' ← visitArgsChoose env notUniversals expected rest
    .ok (arg' :: rest')
termination_by 2 * UExpr.depthList args + 2
decreasing_by
  all_goals simp [UExpr.depthList] <;> omega

/-- The no-universal-argument branch of `visit_funcall`: convert each
argument to its own type hint. -/
def visitArgsSelf (env : UEnv) (args : List UExpr) :
    Except UErr (List UExpr) :=
  match args with
  | [] => .ok []
  | arg :: rest => do
    let arg' ← tryConvertExpr env arg arg.hint
    let rest' ← visitArgsSelf env rest
    .ok (arg' :: rest')
termination_by 2 * UExpr.depthList args + 2
decreasing_by
  all_goals simp [UExpr.depthList] <;> omega

end

/-- An IR statement as seen by the pass: an assignment (the type hint of
the assigned identifier together with the right-hand side) or an
assumption. -/
inductive UStmt where
  | assign (idHint : Nat) (expr : UExpr)
  | assume (expr : UExpr)

/-- `visit_assign` (codegen.py:2416-2425) and `visit_assume`
(codegen.py:2427-2428): an assigned identifier of universal type gets a
compatible concrete type before the right-hand side is converted to the
identifier's type; an assumption's expression is converted to the
boolean type. -/
def visitStmt (env : UEnv) (s : UStmt) : Except UErr UStmt :=
  match s with
  | .assign idHint expr => do
    let idHint' ←
      if idHint == env.universalInt || idHint == env.universalReal then
        compatibleType env idHint
      else .ok idHint
    let expr' ← tryConvertExpr env expr idHint'
    .ok (.assign idHint' expr')
  | .assume expr => do
    let expr' ← tryConvertExpr env expr env.boolType
    .ok (.assume expr')

mutual

/-- No expression in the tree carries a universal type hint. -/
def exprNoUniversal (env : UEnv) : UExpr → Bool
  | .lit _ h => !(h == env.universalInt || h == env.universalReal)
  | .ident h => !(h == env.universalInt || h == env.universalReal)
  | .funcall args h _ =>
    !(h == env.universalInt || h == env.universalReal) &&
      exprNoUniversalList env args

/-- No expression in the list carries a universal type hint. -/
def exprNoUniversalList (env : UEnv) : List UExpr → Bool
  | [] => true
  | e :: es => exprNoUniversal env e && exprNoUniversalList env es

end

/-- No expression in the statement carries a universal type hint. -/
def stmtNoUniversal (env : UEnv) : UStmt → Bool
  | .assign idHint expr =>
    !(idHint == env.universalInt || idHint == env.universalReal) &&
      exprNoUniversal env expr
  | .assume expr => exprNoUniversal env expr

mutual

/-- No type hint in the tree is the universal real type, and every
`param_types` annotation lists one concrete (non-universal) type per
argument. -/
def exprWF (env : UEnv) : UExpr → Bool
  | .lit _ h => !(h == env.universalReal)
  | .ident h => !(h == env.universalReal)
  | .funcall args h pts =>
    !(h == env.universalReal) &&
      (match pts with
       | some ps =>
         ps.length == args.length &&
           ps.all fun p =>
             !(p == env.universalInt || p == env.universalReal)
       | none => true) &&
      exprWFList env args

/-- Well-formedness of each expression in the list. -/
def exprWFList (env : UEnv) : List UExpr → Bool
  | [] => true
  | e :: es => exprWF env e && exprWFList env es

end

/-- Well-formedness of a statement for the amended completion claim. -/
def stmtWF (env : UEnv) : UStmt → Bool
  | .assign idHint expr => !(idHint == env.universalReal) && exprWF env expr
  | .assume expr => exprWF env expr

/-- A concrete pass context used by the counterexample: type 0 is the
universal integer, type 1 the universal real, type 2 the default
integer, type 3 the boolean; only type 2 is an integer range and no
expression is a constant. -/
def uenv0 : UEnv :=
  { universalInt := 0
    universalReal := 1
    intType := 2
    boolType := 3
    isIntRange := fun t => t == 2
    evalConst := fun _ => none }

/-! ## Error isolation in IR generation
(`lalcheck/ai/irs/basic/frontends/lal/codegen.py:2275-2310`)

`transform_decls` and `transform_stmts` share their shape: transform
each node, catch the recoverable errors (`lal.PropertyError`,
`NotImplementedError`, `KeyError`, `NotConstExprError`), emit a warning
for the failed node and continue; any other exception propagates.  The
per-node transformation functions are opaque parameters here, so one
definition covers both loops. -/

/-- The exceptions a node transformation can raise, each carrying the
optional message `print_warning` reads; only the four caught kinds are
recoverable. -/
inductive PyExc where
  | propertyError (msg : Option String)
  | notImplementedError (msg : Option String)
  | keyError (msg : Option String)
  | notConstExprError (msg : Option String)
  | otherError (msg : Option String)
deriving DecidableEq, Repr

/-- Whether `transform_decls` / `transform_stmts` catch the exception. -/
def PyExc.recoverable : PyExc → Bool
  | .otherError _ => false
  | _ => true

/-- `getattr(exception, 'message', None)`. -/
def PyExc.message : PyExc → Option String
  | .propertyError m => m
  | .notImplementedError m => m
  | .keyError m => m
  | .notConstExprError m => m
  | .otherError m => m

/-- A warning record as `print_warning` (codegen.py:2275-2280) emits it:
the text of the ignored node and the exception message, if any. -/
structure Warning where
  subject : String
  message : Option String
deriving DecidableEq, Repr

/-- `print_warning` (codegen.py:2275-2280). -/
def printWarning (subject : String) (e : PyExc) : Warning :=
  ⟨subject, e.message⟩

/-- `transform_decls` (codegen.py:2282-2295) and `transform_stmts`
(codegen.py:2297-2310): extend the result with each node's
transformation; a node whose transformation raises a recoverable error
contributes nothing and produces a warning; an unrecoverable error
propagates. -/
def transformDecls {Decl Stmt : Type} (transformDecl : Decl → Except PyExc (List Stmt))
    (declText : Decl → String) (decls : List Decl) :
    Except PyExc (List Stmt × List Warning) :=
  decls.foldlM
    (fun acc decl =>
      match transformDecl decl with
      | .ok stmts => .ok (acc.1 ++ stmts, acc.2)
      | .error e =>
        if e.recoverable then
          .ok (acc.1, acc.2 ++ [printWarning (declText decl) e])
        else .error e)
    ([], [])

/-- `unimplemented_expr` (codegen.py:412-422): the recovery used *inside*
the transformation of one expression: no extra statements and a fresh
synthetic variable (unconstrained, hence `⊤`) standing for the
untranslatable expression.  The variable is identified by its fresh
index; `typeHint` is the original expression's type. -/
def unimplementedExpr (freshIndex : Nat) (typeHint : Nat) :
    List Nat × (Nat × Nat) :=
  ([], (freshIndex, typeHint))

/-! ## Lattice facts about the modelled interval domain -/

theorem Intv.join_none_left (x : Intv) : Intv.join none x = x := by
  cases x <;> rfl

theorem Intv.join_none_right (x : Intv) : Intv.join x none = x := by
  cases x <;> rfl

theorem Intv.join_comm (x y : Intv) : Intv.join x y = Intv.join y x := by
  rcases x with _ | ⟨a, b⟩ <;> rcases y with _ | ⟨c, d⟩ <;>
    try simp only [Intv.join_none_left, Intv.join_none_right]
  simp only [Intv.join, Option.some.injEq, Prod.mk.injEq]
  omega

theorem Intv.join_assoc (x y z : Intv) :
    Intv.join (Intv.join x y) z = Intv.join x (Intv.join y z) := by
  rcases x with _ | ⟨a, b⟩ <;> rcases y with _ | ⟨c, d⟩ <;>
    rcases z with _ | ⟨e, f⟩ <;>
    try simp only [Intv.join_none_left, Intv.join_none_right]
  simp only [Intv.join, Option.some.injEq, Prod.mk.injEq]
  omega

theorem Intv.join_idem (x : Intv) : Intv.join x x = x := by
  rcases x with _ | ⟨a, b⟩
  · rfl
  · simp [Intv.join]

theorem Intv.none_le (x : Intv) : Intv.le none x = true := rfl

theorem Intv.le_rfl (x : Intv) : Intv.le x x = true := by
  rcases x with _ | ⟨a, b⟩
  · rfl
  · simp [Intv.le]

theorem Intv.le_trans {x y z : Intv} (h1 : Intv.le x y = true)
    (h2 : Intv.le y z = true) : Intv.le x z = true := by
  rcases x with _ | ⟨a, b⟩ <;> rcases y with _ | ⟨c, d⟩ <;>
    rcases z with _ | ⟨e, f⟩ <;> simp_all [Intv.le]
  omega

theorem Intv.le_join_left (x y : Intv) : Intv.le x (Intv.join x y) = true := by
  rcases x with _ | ⟨a, b⟩ <;> rcases y with _ | ⟨c, d⟩ <;>
    simp_all [Intv.le, Intv.join]

theorem Intv.le_join_right (x y : Intv) : Intv.le y (Intv.join x y) = true := by
  rw [Intv.join_comm]
  exact Intv.le_join_left y x

theorem Intv.join_le {x y z : Intv} (h1 : Intv.le x z = true)
    (h2 : Intv.le y z = true) : Intv.le (Intv.join x y) z = true := by
  rcases x with _ | ⟨a, b⟩ <;> rcases y with _ | ⟨c, d⟩ <;>
    rcases z with _ | ⟨e, f⟩ <;> simp_all [Intv.le, Intv.join]

theorem Intv.meet_none_left (x : Intv) : Intv.meet none x = none := by
  cases x <;> rfl

theorem Intv.meet_none_right (x : Intv) : Intv.meet x none = none := by
  cases x <;> rfl

theorem Intv.meet_comm (x y : Intv) : Intv.meet x y = Intv.meet y x := by
  rcases x with _ | ⟨a, b⟩ <;> rcases y with _ | ⟨c, d⟩ <;>
    try simp only [Intv.meet_none_left, Intv.meet_none_right]
  simp only [Intv.meet, mkIntv]
  rw [max_comm, min_comm]

theorem Intv.isEmpty_mkIntv (lo hi : Int) :
    (mkIntv lo hi).isEmpty = !decide (lo ≤ hi) := by
  unfold mkIntv
  split <;> simp_all [Intv.isEmpty]

/-! ## Facts about `get` -/

theorem get_nil (i : Intv) : SArr.get [] i = none := rfl

theorem foldl_join (l : List Intv) (x : Intv) :
    l.foldl Intv.join x = Intv.join x (l.foldl Intv.join none) := by
  induction l generalizing x with
  | nil => simp [Intv.join_none_right]
  | cons h t ih =>
    simp only [List.foldl_cons]
    rw [ih (Intv.join x h), ih (Intv.join none h), Intv.join_none_left,
      Intv.join_assoc]

theorem get_cons (e : Intv × Intv) (l : SArr) (i : Intv) :
    SArr.get (e :: l) i =
      if (Intv.meet i e.1).isEmpty then SArr.get l i
      else Intv.join e.2 (SArr.get l i) := by
  unfold SArr.get
  by_cases h : (Intv.meet i e.1).isEmpty
  · simp [h]
  · have h2 : (Intv.meet i e.1).isEmpty = false := by simpa using h
    simp only [List.filter_cons, h2, Bool.not_false, if_true, List.map_cons,
      List.foldl_cons, Bool.false_eq_true, if_false, Intv.join_none_left]
    rw [foldl_join]

theorem get_append (l1 l2 : SArr) (i : Intv) :
    SArr.get (l1 ++ l2) i = Intv.join (SArr.get l1 i) (SArr.get l2 i) := by
  induction l1 with
  | nil => simp [get_nil, Intv.join_none_left]
  | cons e t ih =>
    rw [List.cons_append, get_cons, get_cons, ih]
    split
    · rfl
    · rw [Intv.join_assoc]

theorem le_get_of_mem {arr : SArr} {s e i : Intv} (hmem : (s, e) ∈ arr)
    (hov : (Intv.meet i s).isEmpty = false) : Intv.le e (SArr.get arr i) = true := by
  induction arr with
  | nil => cases hmem
  | cons x t ih =>
    rw [get_cons]
    rcases List.mem_cons.mp hmem with h | h
    · subst h
      simp only [hov, Bool.false_eq_true, if_false]
      exact Intv.le_join_left e (SArr.get t i)
    · split
      · exact ih h
      · exact Intv.le_trans (ih h) (Intv.le_join_right x.2 (SArr.get t i))

theorem get_le {arr : SArr} {i z : Intv}
    (h : ∀ p ∈ arr, (Intv.meet i p.1).isEmpty = false → Intv.le p.2 z = true) :
    Intv.le (SArr.get arr i) z = true := by
  induction arr with
  | nil => exact Intv.none_le z
  | cons e t ih =>
    rw [get_cons]
    split
    · exact ih fun p hp => h p (List.mem_cons_of_mem e hp)
    · rename_i hov
      refine Intv.join_le (h e (List.mem_cons_self e t) ?_)
        (ih fun p hp => h p (List.mem_cons_of_mem e hp))
      simpa using hov

theorem get_perm {l1 l2 : SArr} (h : l1.Perm l2) (i : Intv) :
    SArr.get l1 i = SArr.get l2 i := by
  induction h with
  | nil => rfl
  | cons x _ ih => rw [get_cons, get_cons, ih]
  | swap x y l =>
    rw [get_cons, get_cons, get_cons, get_cons]
    by_cases hx : (Intv.meet i x.1).isEmpty <;>
      by_cases hy : (Intv.meet i y.1).isEmpty <;> simp [hx, hy]
    rw [← Intv.join_assoc, Intv.join_comm y.2 x.2, Intv.join_assoc]
  | trans _ _ ih1 ih2 => rw [ih1, ih2]

/-! ## `get` is invariant under normalization -/

theorem insertEntry_perm (e : Intv × Intv) (l : SArr) :
    (insertEntry e l).Perm (e :: l) := by
  induction l with
  | nil => exact List.Perm.refl _
  | cons x t ih =>
    unfold insertEntry
    split
    · exact List.Perm.refl _
    · exact (List.Perm.cons x ih).trans (List.Perm.swap e x t)

theorem sortEntries_perm (l : SArr) : (sortEntries l).Perm l := by
  induction l with
  | nil => exact List.Perm.refl _
  | cons e t ih =>
    exact (insertEntry_perm e (sortEntries t)).trans (List.Perm.cons e ih)

theorem canMerge_snd {e1 e2 : Intv × Intv} (h : canMerge e1 e2 = true) :
    e1.2 = e2.2 := by
  obtain ⟨s1, v1⟩ := e1
  obtain ⟨s2, v2⟩ := e2
  rcases s1 with _ | ⟨a, b⟩ <;> rcases s2 with _ | ⟨c, d⟩ <;>
    simp_all [canMerge]

theorem canMerge_overlap {e1 e2 : Intv × Intv} (i : Intv)
    (h : canMerge e1 e2 = true) :
    (Intv.meet i (Intv.join e1.1 e2.1)).isEmpty =
      ((Intv.meet i e1.1).isEmpty && (Intv.meet i e2.1).isEmpty) := by
  obtain ⟨s1, v1⟩ := e1
  obtain ⟨s2, v2⟩ := e2
  rcases s1 with _ | ⟨a, b⟩ <;> rcases s2 with _ | ⟨c, d⟩ <;>
    simp_all [canMerge]
  rcases i with _ | ⟨p, q⟩
  · simp [Intv.meet_none_left]
  · simp only [Intv.meet, Intv.join, Intv.isEmpty_mkIntv]
    by_cases hA : max p a ≤ min q b <;> by_cases hB : max p c ≤ min q d <;>
      simp [hA, hB] <;> omega

theorem get_mergeAdjFuel (i : Intv) :
    ∀ (fuel : Nat) (l : SArr), SArr.get (mergeAdjFuel fuel l) i = SArr.get l i := by
  intro fuel
  induction fuel with
  | zero =>
    intro l
    rcases l with _ | ⟨e1, t⟩
    · rfl
    rcases t with _ | ⟨e2, rest⟩ <;> rfl
  | succ n ih =>
    intro l
    rcases l with _ | ⟨e1, t⟩
    · rfl
    rcases t with _ | ⟨e2, rest⟩
    · rfl
    by_cases hm : canMerge e1 e2
    · rw [show mergeAdjFuel (n + 1) (e1 :: e2 :: rest) =
          mergeAdjFuel n ((Intv.join e1.1 e2.1, e1.2) :: rest) by
        rw [mergeAdjFuel, if_pos hm]]
      rw [ih]
      rw [get_cons, get_cons, get_cons]
      have hu := canMerge_overlap i hm
      have hv := canMerge_snd hm
      by_cases h1 : (Intv.meet i e1.1).isEmpty <;>
        by_cases h2 : (Intv.meet i e2.1).isEmpty <;>
        simp only [h1, h2, Bool.and_true, Bool.and_false, Bool.true_and,
          Bool.false_and] at hu <;>
        simp only [hu, h1, h2, Bool.false_eq_true, if_true, if_false]
      · rw [hv]
      · rw [hv, ← Intv.join_assoc, Intv.join_idem]
    · rw [show mergeAdjFuel (n + 1) (e1 :: e2 :: rest) =
          e1 :: mergeAdjFuel n (e2 :: rest) by
        rw [mergeAdjFuel, if_neg hm]]
      rw [get_cons, get_cons, ih]

theorem get_mergeAdj (l : SArr) (i : Intv) :
    SArr.get (mergeAdj l) i = SArr.get l i := by
  unfold mergeAdj
  exact get_mergeAdjFuel i l.length l

theorem meet_isEmpty_of_right {i s : Intv} (h : s.isEmpty = true) :
    (Intv.meet i s).isEmpty = true := by
  rcases s with _ | p
  · rw [Intv.meet_none_right]; rfl
  · simp [Intv.isEmpty] at h

theorem get_filter_nonempty (l : SArr) (i : Intv) :
    SArr.get (l.filter fun e => !e.1.isEmpty) i = SArr.get l i := by
  induction l with
  | nil => rfl
  | cons e t ih =>
    rw [List.filter_cons]
    by_cases h : e.1.isEmpty
    · simp only [h, Bool.not_true, Bool.false_eq_true, if_false]
      rw [ih, get_cons, if_pos (meet_isEmpty_of_right h)]
    · simp only [h, Bool.not_false, if_true]
      rw [get_cons, get_cons, ih]

theorem get_normalized (l : SArr) (i : Intv) :
    SArr.get (normalized l) i = SArr.get l i := by
  unfold normalized
  rw [get_mergeAdj, get_perm (sortEntries_perm _) i, get_filter_nonempty]

/-! ## Reading back around a singleton update -/

theorem get_bot (l : SArr) : SArr.get l none = none := by
  induction l with
  | nil => rfl
  | cons e t ih => rw [get_cons, if_pos (by rw [Intv.meet_none_left]; rfl), ih]

theorem get_eq_foldIf (l : SArr) (i : Intv) :
    SArr.get l i =
      (l.map fun p => if (Intv.meet i p.1).isEmpty then none else p.2).foldl
        Intv.join none := by
  induction l with
  | nil => rfl
  | cons e t ih =>
    rw [get_cons, List.map_cons, List.foldl_cons]
    by_cases h : (Intv.meet i e.1).isEmpty
    · rw [if_pos h, if_pos h, ih]
      rfl
    · rw [if_neg h, if_neg h, ih, Intv.join_none_left]
      exact (foldl_join _ _).symm

theorem get_flatMap {α : Type} (l : List α) (f : α → SArr) (i : Intv) :
    SArr.get (l.flatMap f) i =
      (l.map fun x => SArr.get (f x) i).foldl Intv.join none := by
  induction l with
  | nil => rfl
  | cons x t ih =>
    rw [List.flatMap_cons, get_append, ih, List.map_cons, List.foldl_cons,
      Intv.join_none_left,
      foldl_join (t.map fun y => SArr.get (f y) i) (SArr.get (f x) i)]

theorem size_one_eq {i : Intv} (h : i.size = 1) : ∃ c : Int, i = some (c, c) := by
  rcases i with _ | ⟨a, b⟩
  · simp [Intv.size] at h
  · simp only [Intv.size] at h
    have hb : b = a := by omega
    exact ⟨a, by rw [hb]⟩

theorem Intv.isEmpty_none : Intv.isEmpty none = true := rfl

theorem Intv.isEmpty_some (p : Int × Int) : Intv.isEmpty (some p) = false := rfl

theorem get_split_pieces (e : Intv) (sa sb c ja jb : Int)
    (hs1 : sa ≤ c) (hs2 : c ≤ sb) (hj : c < ja ∨ jb < c) :
    SArr.get ((Intv.split (some (sa, sb)) (some (c, c))).filterMap fun sp =>
        if sp.isEmpty then none else some (sp, e)) (some (ja, jb)) =
      if (Intv.meet (some (ja, jb)) (some (sa, sb))).isEmpty then none else e := by
  simp only [Intv.split, List.filterMap_cons, List.filterMap_nil]
  by_cases hA : sa ≤ min sb (c - 1) <;> by_cases hB : max sa (c + 1) ≤ sb
  all_goals simp only [mkIntv, hA, hB, if_true, if_false, Intv.isEmpty_none,
    Intv.isEmpty_some, Bool.false_eq_true, Bool.true_eq_false]
  all_goals simp only [get_cons, get_nil, Intv.join_none_right]
  all_goals split_ifs
  all_goals try simp only [Intv.meet, Intv.isEmpty_mkIntv, Bool.not_eq_true',
    Bool.not_eq_false, decide_eq_true_eq, decide_eq_false_iff_not, not_not,
    max_le_iff, le_max_iff, min_le_iff, le_min_iff] at *
  all_goals first | rfl | omega | (simp only [Intv.join_none_right])

theorem get_pieces_eq {i j s e : Intv} (hsz : i.size = 1)
    (hij : (Intv.meet i j).isEmpty = true)
    (hrel : (Intv.meet i s).isEmpty = false) :
    SArr.get ((Intv.split s i).filterMap fun sp =>
        if sp.isEmpty then none else some (sp, e)) j =
      if (Intv.meet j s).isEmpty then none else e := by
  obtain ⟨c, rfl⟩ := size_one_eq hsz
  rcases s with _ | ⟨sa, sb⟩
  · rw [Intv.meet_none_right] at hrel
    simp [Intv.isEmpty_none] at hrel
  have hs : sa ≤ c ∧ c ≤ sb := by
    simp only [Intv.meet, Intv.isEmpty_mkIntv, Bool.not_eq_false',
      decide_eq_true_eq, max_le_iff, le_max_iff, min_le_iff, le_min_iff] at hrel
    omega
  rcases j with _ | ⟨ja, jb⟩
  · rw [Intv.meet_none_left, get_bot]
    rfl
  have hj : c < ja ∨ jb < c := by
    simp only [Intv.meet, Intv.isEmpty_mkIntv, Bool.not_eq_true',
      decide_eq_false_iff_not, max_le_iff, le_max_iff, min_le_iff,
      le_min_iff] at hij
    omega
  exact get_split_pieces e sa sb c ja jb hs.1 hs.2 hj

theorem get_relevant_pieces (rel : SArr) (i j : Intv) (hsz : i.size = 1)
    (hij : (Intv.meet i j).isEmpty = true)
    (hrel : ∀ p ∈ rel, (Intv.meet i p.1).isEmpty = false) :
    SArr.get (rel.flatMap fun p => (Intv.split p.1 i).filterMap fun s =>
        if s.isEmpty then none else some (s, p.2)) j = SArr.get rel j := by
  rw [get_flatMap, get_eq_foldIf rel j]
  congr 1
  exact List.map_congr_left fun p hp => get_pieces_eq hsz hij (hrel p hp)

theorem updatedPrecise_frame (a : SArr) (v i j : Intv)
    (hij : (Intv.meet i j).isEmpty = true) (hsz : i.size = 1) :
    SArr.get (updatedPrecise a v i) j = SArr.get a j := by
  unfold updatedPrecise
  rw [if_pos hsz, List.partition_eq_filter_filter]
  dsimp only
  rw [get_normalized, get_append, get_append]
  have hji : (Intv.meet j i).isEmpty = true := by
    rw [Intv.meet_comm]
    exact hij
  have h1 : SArr.get [(i, v)] j = none := by
    rw [get_cons, if_pos hji, get_nil]
  rw [h1, Intv.join_none_right]
  rw [get_relevant_pieces _ i j hsz hij ?hmem]
  case hmem =>
    intro p hp
    have h2 := List.of_mem_filter hp
    simpa using h2
  rw [← get_append]
  exact get_perm (List.filter_append_perm _ a) j

/-! ## Support for the update/get claims -/

theorem meet_self_of_size_one {i : Intv} (h : i.size = 1) :
    (Intv.meet i i).isEmpty = false := by
  obtain ⟨c, rfl⟩ := size_one_eq h
  simp [Intv.meet, mkIntv, Intv.isEmpty]

theorem meet_meet_right {s i : Intv}
    (h : (Intv.meet s i).isEmpty = false) :
    (Intv.meet i (Intv.meet s i)).isEmpty = false := by
  rcases s with _ | ⟨sa, sb⟩
  · rw [Intv.meet_none_left] at h
    simp [Intv.isEmpty_none] at h
  rcases i with _ | ⟨ia, ib⟩
  · rw [Intv.meet_none_right] at h
    simp [Intv.isEmpty_none] at h
  simp only [Intv.meet, Intv.isEmpty_mkIntv, Bool.not_eq_false',
    decide_eq_true_eq, max_le_iff, le_max_iff, min_le_iff, le_min_iff] at h
  rw [show Intv.meet (some (sa, sb)) (some (ia, ib)) =
      mkIntv (max sa ia) (min sb ib) from rfl]
  rw [show mkIntv (max sa ia) (min sb ib) = some (max sa ia, min sb ib) by
    unfold mkIntv
    rw [if_pos (by omega)]]
  simp only [Intv.meet, Intv.isEmpty_mkIntv, Bool.not_eq_false',
    decide_eq_true_eq, max_le_iff, le_max_iff, min_le_iff, le_min_iff]
  omega

theorem le_get_updatedPrecise_of_size_one (a : SArr) (v i : Intv)
    (hsz : i.size = 1) :
    Intv.le v (SArr.get (updatedPrecise a v i) i) = true := by
  unfold updatedPrecise
  rw [if_pos hsz, get_normalized]
  exact le_get_of_mem
    (List.mem_append.mpr (Or.inr (List.mem_singleton.mpr rfl)))
    (meet_self_of_size_one hsz)

theorem le_get_arrJoin_point (a : SArr) (v i : Intv) (p : Intv × Intv)
    (hp : p ∈ a) (hov : (Intv.meet p.1 i).isEmpty = false) :
    Intv.le v (SArr.get (arrJoin a [(i, v)]) i) = true := by
  unfold arrJoin
  have ha : a.isEmpty = false := by
    cases a
    · cases hp
    · rfl
  rw [if_neg (by simp [ha]), if_neg (by simp)]
  rw [get_normalized]
  have hmem : (Intv.meet p.1 i, Intv.join p.2 v) ∈
      a.flatMap fun x => [(i, v)].filterMap fun y =>
        let m := Intv.meet x.1 y.1
        if m.isEmpty then none else some (m, Intv.join x.2 y.2) := by
    refine List.mem_flatMap.mpr ⟨p, hp, ?_⟩
    refine List.mem_filterMap.mpr ⟨(i, v), List.mem_singleton.mpr rfl, ?_⟩
    simp only [hov, Bool.false_eq_true, if_false]
  exact Intv.le_trans (Intv.le_join_right p.2 v)
    (le_get_of_mem hmem (meet_meet_right hov))

/-! ## Claim theorems for the sparse-array operations -/

/-- C2: for every sparse-array element `arr`, value `val` and index set
`idx`, when `idx` has size 1 and the index domain supports split,
`updated` splits each overlapping slice around `idx`, keeps the
non-overlapping entries, inserts `(idx, val)` and normalizes; in every
other case it equals `join(arr, [(idx, val)])`. -/
theorem updated_matches_claim (hs : Bool) (arr : SArr) (val idx : Intv) :
    updated hs arr val idx = updatedSpec hs arr val idx := by
  cases hs with
  | false => rfl
  | true =>
    unfold updated updatedSpec updatedPrecise
    by_cases hsz : idx.size = 1
    · rw [if_pos rfl, if_pos hsz, if_pos (by simp [hsz]),
        List.partition_eq_filter_filter]
      rfl
    · rw [if_pos rfl, if_neg hsz, if_neg (by simp [hsz])]

/-- C4 counterexample: reading back the updated position can be strictly
less precise than the written value when the update degrades to a join
whose pairwise slice meets are all empty: with `a = [([5,5], [0,0])]`,
`v = [1,1]` and the non-singleton index set `i = [0,1]`, the update
yields the empty representation and `get` returns `⊥`, which is not
above `v`. -/
theorem updated_get_ge_counterexample :
    Intv.le (some (1, 1))
      (SArr.get
        (updated true [(some (5, 5), some (0, 0))] (some (1, 1)) (some (0, 1)))
        (some (0, 1))) = false := by decide

/-- C4 (amended): `get(updated(a, v, i), i) ⊒ v` holds whenever the index
set is a singleton handled by the split-capable path, or the array is
the empty representation and `i` denotes at least one concrete index,
or some slice of `a` overlaps `i`; it can fail otherwise. -/
theorem updated_get_ge_amended (hs : Bool) (a : SArr) (v i : Intv)
    (h : (hs = true ∧ i.size = 1) ∨
      (a = [] ∧ (Intv.meet i i).isEmpty = false) ∨
      (∃ p ∈ a, (Intv.meet p.1 i).isEmpty = false)) :
    Intv.le v (SArr.get (updated hs a v i) i) = true := by
  rcases h with ⟨hhs, hsz⟩ | ⟨ha, hne⟩ | ⟨p, hp, hov⟩
  · subst hhs
    unfold updated
    rw [if_pos rfl]
    exact le_get_updatedPrecise_of_size_one a v i hsz
  · subst ha
    have hg : SArr.get (updated hs [] v i) i = SArr.get [(i, v)] i := by
      cases hs with
      | false => rfl
      | true =>
        unfold updated updatedPrecise
        rw [if_pos rfl]
        by_cases hsz : i.size = 1
        · rw [if_pos hsz]
          exact get_normalized [(i, v)] i
        · rw [if_neg hsz]
          rfl
    rw [hg, get_cons, if_neg (by simp [Intv.meet_comm i i, hne]), get_nil,
      Intv.join_none_right]
    exact Intv.le_rfl v
  · cases hs with
    | false => exact le_get_arrJoin_point a v i p hp hov
    | true =>
      unfold updated updatedPrecise
      rw [if_pos rfl]
      by_cases hsz : i.size = 1
      · rw [if_pos hsz]
        rw [get_normalized]
        exact Intv.le_trans
          (Intv.le_rfl v)
          (le_get_of_mem
            (List.mem_append.mpr (Or.inr (List.mem_singleton.mpr rfl)))
            (meet_self_of_size_one hsz))
      · rw [if_neg hsz]
        exact le_get_arrJoin_point a v i p hp hov

/-- C4 witness: the amended property evaluated on a concrete singleton
update. -/
theorem updated_get_ge_witness :
    Intv.size (some (3, 3)) = 1 ∧
    Intv.le (some (5, 5))
      (SArr.get
        (updated true [(some (0, 10), some (2, 2))] (some (5, 5)) (some (3, 3)))
        (some (3, 3))) = true :=
  ⟨by decide,
    updated_get_ge_amended true [(some (0, 10), some (2, 2))] (some (5, 5))
      (some (3, 3)) (Or.inl ⟨rfl, by decide⟩)⟩

/-- C5 counterexample: updating at a non-singleton index set does not
preserve disjoint positions: with `a = [([0,0], [7,7])]`, `v = [1,1]`,
`i = [2,3]` and `j = [0,0]` (disjoint from `i`), the update degrades to
a join that drops the entry at `[0,0]`, so reading `j` yields `⊥`
instead of `[7,7]`. -/
theorem updated_frame_counterexample :
    (Intv.meet (some (2, 3)) (some (0, 0))).isEmpty = true ∧
    SArr.get
        (updated true [(some (0, 0), some (7, 7))] (some (1, 1)) (some (2, 3)))
        (some (0, 0)) ≠
      SArr.get [(some (0, 0), some (7, 7))] (some (0, 0)) := by decide

/-- C5 (amended): updating a sparse array at a singleton index set leaves
disjoint positions unchanged: when `i ⊓ j = ⊥` and `|i| = 1`,
`get(updated(a, v, i), j) = get(a, j)`. -/
theorem updated_frame_singleton (a : SArr) (v i j : Intv)
    (hij : (Intv.meet i j).isEmpty = true) (hsz : i.size = 1) :
    SArr.get (updated true a v i) j = SArr.get a j := by
  unfold updated
  rw [if_pos rfl]
  exact updatedPrecise_frame a v i j hij hsz

/-- C5 witness: the amended frame property evaluated on a concrete
singleton update. -/
theorem updated_frame_singleton_witness :
    (Intv.meet (some (5, 5)) (some (0, 2))).isEmpty = true ∧
    Intv.size (some (5, 5)) = 1 ∧
    SArr.get
        (updated true [(some (0, 10), some (7, 7))] (some (1, 1)) (some (5, 5)))
        (some (0, 2)) =
      SArr.get [(some (0, 10), some (7, 7))] (some (0, 2)) :=
  ⟨by decide, by decide,
    updated_frame_singleton [(some (0, 10), some (7, 7))] (some (1, 1))
      (some (5, 5)) (some (0, 2)) (by decide) (by decide)⟩

/-- C3 counterexample: `array_string` reduces the singleton arrays with
the domain join, not with `updated`: on the two disjoint pairs
`([0,0], [1,1])` and `([1,1], [2,2])` it returns the empty
representation, while folding `updated` from the empty array keeps both
entries. -/
theorem array_string_counterexample :
    array_string [(some (0, 0), some (1, 1)), (some (1, 1), some (2, 2))] = [] ∧
    arrayStringClaim [(some (0, 0), some (1, 1)), (some (1, 1), some (2, 2))] =
      [(some (0, 0), some (1, 1)), (some (1, 1), some (2, 2))] ∧
    array_string [(some (0, 0), some (1, 1)), (some (1, 1), some (2, 2))] ≠
      arrayStringClaim
        [(some (0, 0), some (1, 1)), (some (1, 1), some (2, 2))] := by decide

/-- C3 (amended): `array_string` returns the empty representation on no
pairs and otherwise normalizes the reduction of the singleton arrays
`[(i_k, e_k)]` by the domain join; this agrees with folding `updated`
over a single nonempty pair but not in general. -/
theorem array_string_amended :
    (∀ args : List (Intv × Intv), array_string args = arrayStringSpec args) ∧
    (∀ i e : Intv, i.isEmpty = false →
      array_string [(i, e)] = arrayStringClaim [(i, e)]) := by
  refine ⟨fun args => rfl, fun i e he => ?_⟩
  rcases i with _ | p
  · simp [Intv.isEmpty] at he
  show normalized [(some p, e)] = updated true [] e (some p)
  unfold updated updatedPrecise
  rw [if_pos rfl]
  by_cases hsz : Intv.size (some p) = 1
  · rw [if_pos hsz]
    rfl
  · rw [if_neg hsz]
    rfl

/-- C1 counterexample: in a feasible case where the meet is nonempty and
the derived index set has size greater than one, `inv_get` does not
return the index constraint unchanged: with the expected value `[0,0]`,
the array constraint `[([0,0], [10,10])]` and the index constraint
`[0,5]`, the entry at index `0` conflicts with the expected value, so
the backward operation returns the strictly refined index set `[1,5]`
(and the array constraint unchanged) rather than both inputs
unchanged. -/
theorem inv_get_counterexample :
    inv_get true (some (0, 0)) [(some (0, 0), some (10, 10))] (some (0, 5)) =
      some ([(some (0, 0), some (10, 10))], some (1, 5)) ∧
    (some (1, 5) : Intv) ≠ some (0, 5) :=
  ⟨by decide, by decide⟩

/-- C1 (amended): the backward get meets the biggest array holding the
expected value at the constrained indices (and `⊤` elsewhere) with the
array constraint; it is infeasible when the meet is empty and also when
the index set derived from the meet is empty; when the derived set is a
singleton it refines the array constraint via `updated` with the element
met with the expected value; otherwise it returns the array constraint
unchanged together with the derived — possibly strictly refined — index
set. -/
theorem inv_get_matches_amended (res : Intv) (arrayConstr : SArr)
    (indexConstr : Intv) :
    inv_get true res arrayConstr indexConstr =
      invGetSpec res arrayConstr indexConstr := rfl

/-- C10: the backward operation of `array_string` never refines and never
reports infeasibility: it returns the argument constraints unchanged for
every expected result, including bottom ones — unlike, for instance, the
backward get, which returns the infeasible sentinel on bottom
constraints. -/
theorem inv_array_string_identity :
    (∀ (expected : SArr) (args : List (Intv × Intv)),
      inv_array_string expected args = args) ∧
    inv_array_string [] [(none, none)] = [(none, none)] ∧
    inv_get true none [] none = none :=
  ⟨fun _ _ => rfl, rfl, by decide⟩

/-- C3 witness: the single-pair agreement of the amended claim evaluated
on a concrete pair. -/
theorem array_string_amended_witness :
    Intv.isEmpty (some ((0 : Int), (0 : Int))) = false ∧
    array_string [(some (0, 0), some (4, 4))] =
      arrayStringClaim [(some (0, 0), some (4, 4))] :=
  ⟨by decide, array_string_amended.2 (some (0, 0)) (some (4, 4)) (by decide)⟩

/-! ## Claim theorems for `Signature` and the RAM provider -/

/-- C6 counterexample: `substituted` does not keep the user data: the
constructor call inside it (interpretations.py:118-126) passes only four
fields, so the copy's `userdata` is reset to `None`, and by the
five-field equality the result differs from the copy the claim
describes. -/
theorem signature_substituted_counterexample :
    (Signature.mk (.str "f") [0] (some 0) [] (some 7)).substituted 0 1 ≠
      Signature.mk (.str "f") [1] (some 1) [] (some 7) ∧
    ((Signature.mk (.str "f") [0] (some 0) [] (some 7)).substituted 0 1).userdata
      = none :=
  ⟨by decide, rfl⟩

/-- C6 (amended): `substituted(D, D')` returns exactly the signature
whose input domains and output domain are those of `s` with every
occurrence of `D` replaced by `D'`, whose name and out-parameter indices
are unchanged, and whose user data is reset to `None`; and signature
equality holds iff all five fields match. -/
theorem signature_substituted_amended (s : Signature) (d d' : Nat) :
    (s.substituted d d' =
      { name := s.name
        input_domains :=
          s.input_domains.map fun dom => if dom = d then d' else dom
        output_domain :=
          s.output_domain.map fun dom => if dom = d then d' else dom
        out_param_indices := s.out_param_indices
        userdata := none }) ∧
    (∀ a b : Signature, a.sigEq b = true ↔
      (a.name = b.name ∧ a.input_domains = b.input_domains ∧
        a.output_domain = b.output_domain ∧
        a.out_param_indices = b.out_param_indices ∧
        a.userdata = b.userdata)) := by
  constructor
  · unfold Signature.substituted
    cases ho : s.output_domain with
    | none => simp
    | some x =>
      by_cases hx : x = d
      · subst hx
        simp
      · simp [hx, Option.map_some']
  · intro a b
    unfold Signature.sigEq
    simp [and_assoc]

/-- C9: the random-access-memory definition provider matches the `eq` and
`neq` signatures over the memory domain and returns the
`_not_implemented` trap for both the forward and the backward
implementation, and applying `_not_implemented` to any arguments is an
error — it never computes a result. -/
theorem ram_eq_neq_not_implemented :
    defaultRamProvider (binRelSig .eqOp) =
      some (.notImplemented, .notImplemented) ∧
    defaultRamProvider (binRelSig .neqOp) =
      some (.notImplemented, .notImplemented) ∧
    (∀ args : List Nat, notImplementedFn (β := Nat) args = .error ()) :=
  ⟨by decide, by decide, fun _ => rfl⟩

/-! ## Claim theorems for error isolation in IR generation -/

/-- C8 counterexample: a declaration whose transformation raises a
recoverable error is dropped from the output with only a warning — it is
not replaced by a placeholder statement: of three declarations with the
middle one failing, the resulting program has two statements and nothing
standing for the failed declaration. -/
theorem transform_decls_counterexample :
    transformDecls
        (fun d : Nat =>
          if d = 1 then .error (.notImplementedError (some "oops"))
          else .ok [d])
        (fun d => toString d) [0, 1, 2] =
      .ok ([0, 2], [⟨"1", some "oops"⟩]) ∧
    ([0, 2] : List Nat).length = 2 :=
  ⟨rfl, rfl⟩

/-- C8 (amended): when every failure among the declarations is a
recoverable error, IR generation still returns a program: the statement
list is the concatenation of the successful transformations in order,
each failing declaration contributes no statements (it is dropped, not
replaced by a placeholder), and one warning carrying the declaration
text and the exception message is emitted per failing declaration.
(Placeholder recovery via `unimplemented_expr` happens inside the
transformation of a single expression, not at this level.) -/
theorem except_ok_bind {E A B : Type} (x : A) (k : A → Except E B) :
    (Except.ok x >>= k) = k x := rfl

theorem transform_decls_isolates {Decl Stmt : Type}
    (f : Decl → Except PyExc (List Stmt)) (text : Decl → String)
    (decls : List Decl)
    (h : ∀ d ∈ decls, ∀ e, f d = .error e → e.recoverable = true) :
    transformDecls f text decls =
      .ok
        ((decls.map fun d =>
          match f d with
          | .ok stmts => stmts
          | .error _ => []).flatten,
        decls.filterMap fun d =>
          match f d with
          | .ok _ => none
          | .error e => some (printWarning (text d) e)) := by
  have H : ∀ (ds : List Decl) (acc : List Stmt × List Warning),
      (∀ d ∈ ds, ∀ e, f d = .error e → e.recoverable = true) →
      (ds.foldlM
        (fun acc decl =>
          match f decl with
          | .ok stmts => .ok (acc.1 ++ stmts, acc.2)
          | .error e =>
            if e.recoverable then
              .ok (acc.1, acc.2 ++ [printWarning (text decl) e])
            else .error e)
        acc : Except PyExc (List Stmt × List Warning)) =
      .ok
        (acc.1 ++ (ds.map fun d =>
          match f d with
          | .ok stmts => stmts
          | .error _ => []).flatten,
        acc.2 ++ ds.filterMap fun d =>
          match f d with
          | .ok _ => none
          | .error e => some (printWarning (text d) e)) := by
    intro ds
    induction ds with
    | nil =>
      intro acc _
      simp only [List.foldlM, List.map_nil, List.flatten_nil,
        List.filterMap_nil, List.append_nil]
      rfl
    | cons d ds ih =>
      intro acc hrec
      rw [List.foldlM_cons]
      rcases hf : f d with e | stmts
      · have he : e.recoverable = true := hrec d (List.mem_cons_self d ds) e hf
        simp only [hf]
        rw [if_pos he, except_ok_bind]
        rw [ih _ (fun d2 hd2 => hrec d2 (List.mem_cons_of_mem d hd2))]
        simp [hf, he, List.append_assoc]
      · simp only [hf, except_ok_bind]
        rw [ih _ (fun d2 hd2 => hrec d2 (List.mem_cons_of_mem d hd2))]
        simp [hf, List.append_assoc]
  have hmain := H decls ([], []) h
  unfold transformDecls
  rw [hmain]
  simp

/-- C8 witness: the amended isolation property evaluated on three
declarations whose middle one raises a recoverable `KeyError`. -/
theorem transform_decls_isolates_witness :
    transformDecls
        (fun d : Nat =>
          if d = 1 then .error (.keyError none) else .ok [d])
        (fun d => toString d) [0, 1, 2] =
      .ok
        (([0, 1, 2].map fun d =>
          match (if d = 1 then (.error (.keyError none) :
              Except PyExc (List Nat)) else .ok [d]) with
          | .ok stmts => stmts
          | .error _ => []).flatten,
        [0, 1, 2].filterMap fun d =>
          match (if d = 1 then (.error (.keyError none) :
              Except PyExc (List Nat)) else .ok [d]) with
          | .ok _ => none
          | .error e => some (printWarning (toString d) e)) :=
  transform_decls_isolates _ _ _ (by
    intro d hd e he
    simp only [List.mem_cons, List.not_mem_nil, or_false] at hd
    rcases hd with rfl | rfl | rfl
    · simp at he
    · simp only [if_pos rfl] at he
      cases he
      rfl
    · simp at he)

/-! ## Claim theorems for the universal-type rewrite -/

/-- C7 counterexample: on an assignment whose target carries the
universal real type hint, the pass raises `NotImplementedError` (from
`compatible_type`, codegen.py:2388-2391) instead of completing with a
concrete type: the claim fails for universal reals. -/
theorem convert_universal_counterexample :
    visitStmt uenv0 (.assign 1 (.lit 5 1)) = .error .notImplemented := rfl

theorem UExpr.one_le_depth (e : UExpr) : 1 ≤ e.depth := by
  cases e <;> simp [UExpr.depth]

theorem UExpr.hint_withHint (e : UExpr) (t : Nat) : (e.withHint t).hint = t := by
  cases e <;> rfl

theorem UExpr.depth_withHint (e : UExpr) (t : Nat) :
    (e.withHint t).depth = e.depth := by
  cases e <;> rfl

theorem exprWF_withHint {env : UEnv} {e : UExpr} {t : Nat}
    (hwf : exprWF env e = true) (ht : (t == env.universalReal) = false) :
    exprWF env (e.withHint t) = true := by
  cases e with
  | lit v h => simpa [UExpr.withHint, exprWF] using ht
  | ident h => simpa [UExpr.withHint, exprWF] using ht
  | funcall args h pts =>
    simp only [UExpr.withHint, exprWF, Bool.and_eq_true] at hwf ⊢
    exact ⟨⟨by simpa using ht, hwf.1.2⟩, hwf.2⟩

theorem hasUniversalType_withHint (env : UEnv) (e : UExpr) (t : Nat) :
    hasUniversalType env (e.withHint t) =
      (t == env.universalInt || t == env.universalReal) := by
  unfold hasUniversalType
  rw [UExpr.hint_withHint]

theorem chooseTpe_ok {env : UEnv} (nus : List Nat) (t : Nat) (arg : UExpr)
    (hintc : (env.intType == env.universalInt ||
      env.intType == env.universalReal) = false)
    (hnus : ∀ x ∈ nus,
      (x == env.universalInt || x == env.universalReal) = false)
    (ht : (t == env.universalInt || t == env.universalReal) = false)
    (harg : (arg.hint == env.universalReal) = false) :
    ∃ tpe, chooseTpe env nus t arg = .ok tpe ∧
      (tpe == env.universalInt || tpe == env.universalReal) = false := by
  unfold chooseTpe
  by_cases hu : hasUniversalType env arg = true
  · have harg2 : arg.hint = env.universalInt := by
      unfold hasUniversalType at hu
      simp only [Bool.or_eq_true, beq_iff_eq] at hu
      rcases hu with h | h
      · exact h
      · rw [h] at harg
        simp at harg
    rw [if_neg (by simp [hu])]
    have hcompat : ∀ x : Nat, isCompatible env x arg.hint = .ok (env.isIntRange x) := by
      intro x
      unfold isCompatible
      rw [harg2, if_pos rfl]
    have hdefault : compatibleType env arg.hint = .ok env.intType := by
      unfold compatibleType
      rw [harg2, if_pos rfl]
    cases nus with
    | nil =>
      dsimp only
      rw [hcompat t, except_ok_bind]
      by_cases hr : env.isIntRange t = true
      · rw [if_pos hr]
        exact ⟨t, rfl, ht⟩
      · rw [if_neg hr, hdefault]
        exact ⟨env.intType, rfl, hintc⟩
    | cons nu rest =>
      dsimp only
      rw [hcompat nu, except_ok_bind]
      by_cases hr : env.isIntRange nu = true
      · rw [if_pos hr]
        exact ⟨nu, rfl, hnus nu (List.mem_cons_self nu rest)⟩
      · rw [if_neg hr, hcompat t, except_ok_bind]
        by_cases hr2 : env.isIntRange t = true
        · rw [if_pos hr2]
          exact ⟨t, rfl, ht⟩
        · rw [if_neg hr2, hdefault]
          exact ⟨env.intType, rfl, hintc⟩
  · rw [if_pos (by simp [Bool.eq_false_iff.mpr hu])]
    refine ⟨arg.hint, rfl, ?_⟩
    unfold hasUniversalType at hu
    simpa using hu

theorem exprWF_hint_ne_real {env : UEnv} {e : UExpr}
    (h : exprWF env e = true) : (e.hint == env.universalReal) = false := by
  cases e <;> simp_all [exprWF, UExpr.hint]

theorem conv_core (env : UEnv)
    (hintc : (env.intType == env.universalInt ||
      env.intType == env.universalReal) = false) :
    ∀ n : Nat,
      (∀ e t, UExpr.depth e ≤ n → exprWF env e = true →
        (t == env.universalInt || t == env.universalReal) = false →
        ∃ e2, tryConvertExpr env e t = .ok e2 ∧
          exprNoUniversal env e2 = true) ∧
      (∀ e t, UExpr.depth e ≤ n → exprWF env e = true →
        hasUniversalType env e = false →
        (t == env.universalInt || t == env.universalReal) = false →
        ∃ e2, visitExpr env e t = .ok e2 ∧ exprNoUniversal env e2 = true) ∧
      (∀ ps args, UExpr.depthList args ≤ n → exprWFList env args = true →
        (∀ p ∈ ps, (p == env.universalInt || p == env.universalReal) = false) →
        ∃ args2, visitArgsWithTypes env ps args = .ok args2 ∧
          exprNoUniversalList env args2 = true) ∧
      (∀ nus t args, UExpr.depthList args ≤ n → exprWFList env args = true →
        (∀ x ∈ nus, (x == env.universalInt || x == env.universalReal) = false) →
        (t == env.universalInt || t == env.universalReal) = false →
        ∃ args2, visitArgsChoose env nus t args = .ok args2 ∧
          exprNoUniversalList env args2 = true) ∧
      (∀ args, UExpr.depthList args ≤ n → exprWFList env args = true →
        (∀ a ∈ args, hasUniversalType env a = false) →
        ∃ args2, visitArgsSelf env args = .ok args2 ∧
          exprNoUniversalList env args2 = true) := by
  intro n
  induction n with
  | zero =>
    refine ⟨?_, ?_, ?_, ?_, ?_⟩
    · intro e t hd _ _
      have := UExpr.one_le_depth e
      omega
    · intro e t hd _ _ _
      have := UExpr.one_le_depth e
      omega
    · intro ps args hd _ _
      cases args with
      | nil =>
        refine ⟨[], ?_, rfl⟩
        cases ps <;> simp [visitArgsWithTypes]
      | cons arg rest => simp [UExpr.depthList] at hd
    · intro nus t args hd _ _ _
      cases args with
      | nil => exact ⟨[], by rw [visitArgsChoose], rfl⟩
      | cons arg rest => simp [UExpr.depthList] at hd
    · intro args hd _ _
      cases args with
      | nil => exact ⟨[], by rw [visitArgsSelf], rfl⟩
      | cons arg rest => simp [UExpr.depthList] at hd
  | succ n ih =>
    obtain ⟨ihA, ihB, ihW, ihC, ihS⟩ := ih
    have hW : ∀ ps args, UExpr.depthList args ≤ n + 1 →
        exprWFList env args = true →
        (∀ p ∈ ps, (p == env.universalInt || p == env.universalReal) = false) →
        ∃ args2, visitArgsWithTypes env ps args = .ok args2 ∧
          exprNoUniversalList env args2 = true := by
      intro ps args hd hwf hps
      cases args with
      | nil =>
        refine ⟨[], ?_, rfl⟩
        cases ps <;> simp [visitArgsWithTypes]
      | cons arg rest =>
        cases ps with
        | nil =>
          refine ⟨[], ?_, rfl⟩
          simp [visitArgsWithTypes]
        | cons pt ps2 =>
          rw [visitArgsWithTypes]
          simp only [UExpr.depthList] at hd
          simp only [exprWFList, Bool.and_eq_true] at hwf
          obtain ⟨a2, ha2, hna⟩ := ihA arg pt (by omega) hwf.1
            (hps pt (List.mem_cons_self pt ps2))
          obtain ⟨r2, hr2, hnr⟩ := ihW ps2 rest (by omega) hwf.2
            (fun p hp => hps p (List.mem_cons_of_mem pt hp))
          rw [ha2, except_ok_bind, hr2, except_ok_bind]
          exact ⟨a2 :: r2, rfl, by simp [exprNoUniversalList, hna, hnr]⟩
    have hC : ∀ nus t args, UExpr.depthList args ≤ n + 1 →
        exprWFList env args = true →
        (∀ x ∈ nus, (x == env.universalInt || x == env.universalReal) = false) →
        (t == env.universalInt || t == env.universalReal) = false →
        ∃ args2, visitArgsChoose env nus t args = .ok args2 ∧
          exprNoUniversalList env args2 = true := by
      intro nus t args hd hwf hnus ht
      cases args with
      | nil => exact ⟨[], by rw [visitArgsChoose], rfl⟩
      | cons arg rest =>
        rw [visitArgsChoose]
        simp only [UExpr.depthList] at hd
        simp only [exprWFList, Bool.and_eq_true] at hwf
        obtain ⟨tpe, htpe, hntpe⟩ :=
          chooseTpe_ok nus t arg hintc hnus ht (exprWF_hint_ne_real hwf.1)
        rw [htpe, except_ok_bind]
        obtain ⟨a2, ha2, hna⟩ := ihA arg tpe (by omega) hwf.1 hntpe
        rw [ha2, except_ok_bind]
        obtain ⟨r2, hr2, hnr⟩ := ihC nus t rest (by omega) hwf.2 hnus ht
        rw [hr2, except_ok_bind]
        exact ⟨a2 :: r2, rfl, by simp [exprNoUniversalList, hna, hnr]⟩
    have hS : ∀ args, UExpr.depthList args ≤ n + 1 →
        exprWFList env args = true →
        (∀ a ∈ args, hasUniversalType env a = false) →
        ∃ args2, visitArgsSelf env args = .ok args2 ∧
          exprNoUniversalList env args2 = true := by
      intro args hd hwf hne
      cases args with
      | nil => exact ⟨[], by rw [visitArgsSelf], rfl⟩
      | cons arg rest =>
        rw [visitArgsSelf]
        simp only [UExpr.depthList] at hd
        simp only [exprWFList, Bool.and_eq_true] at hwf
        have hah : (arg.hint == env.universalInt ||
            arg.hint == env.universalReal) = false := by
          have := hne arg (List.mem_cons_self arg rest)
          unfold hasUniversalType at this
          exact this
        obtain ⟨a2, ha2, hna⟩ := ihA arg arg.hint (by omega) hwf.1 hah
        rw [ha2, except_ok_bind]
        obtain ⟨r2, hr2, hnr⟩ := ihS rest (by omega) hwf.2
          (fun a haa => hne a (List.mem_cons_of_mem arg haa))
        rw [hr2, except_ok_bind]
        exact ⟨a2 :: r2, rfl, by simp [exprNoUniversalList, hna, hnr]⟩
    have hB : ∀ e t, UExpr.depth e ≤ n + 1 → exprWF env e = true →
        hasUniversalType env e = false →
        (t == env.universalInt || t == env.universalReal) = false →
        ∃ e2, visitExpr env e t = .ok e2 ∧ exprNoUniversal env e2 = true := by
      intro e t hd hwf hu ht
      cases e with
      | lit v h =>
        refine ⟨.lit v h, by rw [visitExpr], ?_⟩
        unfold hasUniversalType UExpr.hint at hu
        simpa [exprNoUniversal] using hu
      | ident h =>
        rw [visitExpr]
        unfold hasUniversalType UExpr.hint at hu
        rw [if_neg (by simp [hu])]
        exact ⟨.ident h, rfl, by simpa [exprNoUniversal] using hu⟩
      | funcall args hint pts =>
        rw [visitExpr.eq_def]
        dsimp only
        have hhint : (hint == env.universalInt ||
            hint == env.universalReal) = false := by
          unfold hasUniversalType UExpr.hint at hu
          exact hu
        simp only [exprWF, Bool.and_eq_true] at hwf
        obtain ⟨⟨-, hpts⟩, hargsWF⟩ := hwf
        have hdl : UExpr.depthList args ≤ n + 1 := by
          simp only [UExpr.depth] at hd
          omega
        by_cases hany : args.any (hasUniversalType env) = true
        · rw [if_pos hany]
          cases pts with
          | some ps =>
            dsimp only
            simp only [Bool.and_eq_true, beq_iff_eq, List.all_eq_true] at hpts
            obtain ⟨hlen, hpsu⟩ := hpts
            have hpsu2 : ∀ p ∈ ps,
                (p == env.universalInt || p == env.universalReal) = false := by
              intro p hp
              have := hpsu p hp
              simpa using this
            rw [if_pos hlen]
            obtain ⟨args2, hargs2, hn2⟩ := hW ps args hdl hargsWF hpsu2
            rw [hargs2, except_ok_bind]
            exact ⟨.funcall args2 hint (some ps), rfl,
              by simp [exprNoUniversal, hhint, hn2]⟩
          | none =>
            dsimp only
            have hnus : ∀ x ∈ (args.filter fun a2 =>
                !hasUniversalType env a2).map UExpr.hint,
                (x == env.universalInt || x == env.universalReal) = false := by
              intro x hx
              obtain ⟨a2, ha2, rfl⟩ := List.mem_map.mp hx
              have hmem := List.of_mem_filter ha2
              have : hasUniversalType env a2 = false := by simpa using hmem
              unfold hasUniversalType at this
              exact this
            obtain ⟨args2, hargs2, hn2⟩ := hC _ t args hdl hargsWF hnus ht
            rw [hargs2, except_ok_bind]
            exact ⟨.funcall args2 hint none, rfl,
              by simp [exprNoUniversal, hhint, hn2]⟩
        · rw [if_neg hany]
          obtain ⟨args2, hargs2, hn2⟩ := hS args hdl hargsWF (by
            intro a2 ha2
            have h2 : args.any (hasUniversalType env) = false :=
              Bool.eq_false_iff.mpr hany
            rw [List.any_eq_false] at h2
            have := h2 a2 ha2
            simpa using this)
          rw [hargs2, except_ok_bind]
          exact ⟨.funcall args2 hint pts, rfl,
            by simp [exprNoUniversal, hhint, hn2]⟩
    have hA : ∀ e t, UExpr.depth e ≤ n + 1 → exprWF env e = true →
        (t == env.universalInt || t == env.universalReal) = false →
        ∃ e2, tryConvertExpr env e t = .ok e2 ∧
          exprNoUniversal env e2 = true := by
      intro e t hd hwf ht
      rw [tryConvertExpr]
      rcases hev : env.evalConst e with _ | v
      · by_cases hu : hasUniversalType env e = true
        · rw [if_pos hu]
          exact hB (e.withHint t) ((e.withHint t).hint)
            (by rw [UExpr.depth_withHint]; exact hd)
            (exprWF_withHint hwf (Bool.or_eq_false_iff.mp ht).2)
            (by rw [hasUniversalType_withHint]; exact ht)
            (by rw [UExpr.hint_withHint]; exact ht)
        · rw [if_neg hu]
          have hu2 : hasUniversalType env e = false := Bool.eq_false_iff.mpr hu
          refine hB e e.hint hd hwf hu2 ?_
          unfold hasUniversalType at hu2
          exact hu2
      · exact ⟨.lit v t, rfl, by simpa [exprNoUniversal] using ht⟩
    exact ⟨hA, hB, hW, hC, hS⟩

/-- C7 (amended): on a statement whose universal type hints are all
universal integers (no universal reals anywhere), whose `param_types`
annotations are concrete and length-matching, and whose evaluator
provides concrete default integer and boolean types, the pass completes
and no visited expression retains a universal type hint.  For universal
reals the pass raises `NotImplementedError` instead (see the
counterexample). -/
theorem convert_universal_completes (env : UEnv) (s : UStmt)
    (hintc : (env.intType == env.universalInt ||
      env.intType == env.universalReal) = false)
    (hboolc : (env.boolType == env.universalInt ||
      env.boolType == env.universalReal) = false)
    (hwf : stmtWF env s = true) :
    ∃ s2, visitStmt env s = .ok s2 ∧ stmtNoUniversal env s2 = true := by
  cases s with
  | assign idHint expr =>
    obtain ⟨hA, -, -, -, -⟩ := conv_core env hintc expr.depth
    simp only [stmtWF, Bool.and_eq_true] at hwf
    rw [visitStmt]
    by_cases hu : (idHint == env.universalInt ||
        idHint == env.universalReal) = true
    · have hui : idHint = env.universalInt := by
        rcases Bool.or_eq_true_iff.mp hu with h | h
        · exact beq_iff_eq.mp h
        · rw [beq_iff_eq.mp h] at hwf
          simp at hwf
      rw [if_pos hu]
      have hct : compatibleType env idHint = .ok env.intType := by
        unfold compatibleType
        rw [hui, if_pos rfl]
      rw [hct, except_ok_bind]
      obtain ⟨e2, he2, hn2⟩ :=
        hA expr env.intType (Nat.le_refl _) hwf.2 hintc
      dsimp only
      rw [he2, except_ok_bind]
      exact ⟨.assign env.intType e2, rfl,
        by simp [stmtNoUniversal, hintc, hn2]⟩
    · have hu2 : (idHint == env.universalInt ||
          idHint == env.universalReal) = false := Bool.eq_false_iff.mpr hu
      rw [if_neg hu, except_ok_bind]
      obtain ⟨e2, he2, hn2⟩ := hA expr idHint (Nat.le_refl _) hwf.2 hu2
      dsimp only
      rw [he2, except_ok_bind]
      exact ⟨.assign idHint e2, rfl, by simp [stmtNoUniversal, hu2, hn2]⟩
  | assume expr =>
    obtain ⟨hA, -, -, -, -⟩ := conv_core env hintc expr.depth
    simp only [stmtWF] at hwf
    rw [visitStmt]
    obtain ⟨e2, he2, hn2⟩ := hA expr env.boolType (Nat.le_refl _) hwf hboolc
    rw [he2, except_ok_bind]
    exact ⟨.assume e2, rfl, by simp [stmtNoUniversal, hn2]⟩

/-- C7 witness: the amended completion property applied to a concrete
assignment of a call whose literal argument has the universal integer
type hint. -/
theorem convert_universal_completes_witness :
    (uenv0.intType == uenv0.universalInt ||
      uenv0.intType == uenv0.universalReal) = false ∧
    (uenv0.boolType == uenv0.universalInt ||
      uenv0.boolType == uenv0.universalReal) = false ∧
    stmtWF uenv0 (.assign 2 (.funcall [.lit 3 0, .ident 2] 2 none)) = true ∧
    ∃ s2, visitStmt uenv0 (.assign 2 (.funcall [.lit 3 0, .ident 2] 2 none)) =
      .ok s2 ∧ stmtNoUniversal uenv0 s2 = true :=
  ⟨by decide, by decide, by decide,
    convert_universal_completes uenv0
      (.assign 2 (.funcall [.lit 3 0, .ident 2] 2 none))
      (by decide) (by decide) (by decide)⟩
